import Mathlib

/-!
Verification of the wordbox solver (src/main.rs): a shallow embedding of the
lexicon index, the word-box state and the frontier search, together with
theorems settling the specification's claims about them.

Modelling conventions.
* A Rust `String` that holds a word is modelled as `List Char` (`Word`); the
  program pipeline only reaches the solver with all-ASCII words, for which
  Rust's byte length and char count coincide.  The byte-level behaviour of
  `HashMapLexicon::initialize` (which slices at byte indices) is modelled
  separately (`byteSlice`, `HashMapLexicon.initialize_bytes`).
* `word.chars().nth(i).unwrap()` panics when `i` is out of range; the total
  model `WordBox.take_ith_characters` returns the default character 'A' there,
  and the in-bounds theorems show the default is never consulted on states the
  search reaches from a well-formed seed.
* Rust's `HashMap<String, Vec<String>>` is modelled as an association list
  with `entry(..).or_default().push(..)` semantics (`mapPush`); `get` does not
  depend on the hash order, so the association list is a faithful model.
* The trait `Lexicon` is used by the solver only through `words_with_prefix`;
  the solver therefore takes the query function itself as a parameter.
-/

/-- A word: the character sequence of a Rust `String`. -/
abbrev Word := List Char

/-- Rust `word.starts_with(p)`: does `w` begin with `p`?  (Char-wise; for the
ASCII words the program handles this agrees with Rust's byte-wise test.) -/
def starts_with : Word → Word → Bool
  | _, [] => true
  | [], _ :: _ => false
  | c :: w, d :: p => c == d && starts_with w p

/-- The grid state from src/main.rs: fixed dimensions, the rows placed so far,
the column words (mirroring rows for symmetric boxes), and the symmetry flag. -/
structure WordBox where
  row_dim : Nat
  col_dim : Nat
  rows : List Word
  cols : List Word
  is_symmetric : Bool
deriving DecidableEq

/-- Structure `VecLexicon`: the vector-scan lexicon strategy. -/
structure VecLexicon where
  words : List Word
deriving DecidableEq

/-- Source `VecLexicon::initialize`: keep the words whose length is in `lengths`. -/
def VecLexicon.initialize (words : List Word) (lengths : List Nat) : VecLexicon :=
  ⟨words.filter (fun wd => lengths.contains wd.length)⟩

/-- Source `VecLexicon::words_with_prefix`: scan for the words that start with `p`
and have length `word_len`. -/
def VecLexicon.words_with_prefix (lex : VecLexicon) (p : Word) (word_len : Nat) : List Word :=
  lex.words.filter (fun wd => starts_with wd p && wd.length == word_len)

/-- Structure `HashMapLexicon`: the prefix-indexed lexicon strategy, with the hash map
modelled as an association list from prefix to the words pushed under it. -/
structure HashMapLexicon where
  words : List (Word × List Word)
deriving DecidableEq

/-- Rust `words_map.entry(k).or_default().push(v)`: push `v` onto the entry of key
`k`, creating the entry when absent. -/
def mapPush : List (Word × List Word) → Word → Word → List (Word × List Word)
  | [], k, v => [(k, [v])]
  | (k0, vs) :: rest, k, v =>
    if k0 = k then (k0, vs ++ [v]) :: rest else (k0, vs) :: mapPush rest k v

/-- Rust `words_map.get(k)` with `unwrap_or(&vec![])`: the entry of key `k`, or the
empty list when the key is absent. -/
def mapGet : List (Word × List Word) → Word → List Word
  | [], _ => []
  | (k0, vs) :: rest, k => if k0 = k then vs else mapGet rest k

/-- The inner loop of `HashMapLexicon::initialize`: push `wd` under each of
its prefixes `wd[..i]`, `i = 0, ..., wd.length` (char-level model). -/
def insertAllPrefixes (m : List (Word × List Word)) (wd : Word) : List (Word × List Word) :=
  (List.range (wd.length + 1)).foldl (fun acc i => mapPush acc (wd.take i) wd) m

/-- Source `HashMapLexicon::initialize`: for every word whose length is in `lengths`,
insert it under all of its prefixes. -/
def HashMapLexicon.initialize (words : List Word) (lengths : List Nat) : HashMapLexicon :=
  ⟨words.foldl (fun m wd => if lengths.contains wd.length then insertAllPrefixes m wd else m) []⟩

/-- Source `HashMapLexicon::words_with_prefix`: look the prefix up and keep the words
of length `word_len`. -/
def HashMapLexicon.words_with_prefix (lex : HashMapLexicon) (p : Word) (word_len : Nat) :
    List Word :=
  (mapGet lex.words p).filter (fun wd => wd.length == word_len)

/-- Rust `char::is_ascii_punctuation`: the four ASCII punctuation ranges. -/
def is_ascii_punctuation (c : Char) : Bool :=
  decide ((33 ≤ c.toNat ∧ c.toNat ≤ 47) ∨ (58 ≤ c.toNat ∧ c.toNat ≤ 64) ∨
    (91 ≤ c.toNat ∧ c.toNat ≤ 96) ∨ (123 ≤ c.toNat ∧ c.toNat ≤ 126))

/-- Source `filter_words` (file reading elided: the argument is the list of lines):
keep the lines with no uppercase letter, no ASCII punctuation and no
whitespace.  `Char.isUpper`/`Char.isWhitespace` are the ASCII fragments of the
Unicode predicates Rust uses; they agree on ASCII input. -/
def filter_words (lines : List Word) : List Word :=
  lines.filter (fun line =>
    line.all (fun c => !(c.isUpper) && !(is_ascii_punctuation c) && !(c.isWhitespace)))

/-- Source `WordBox::is_done`: all rows placed. -/
def WordBox.is_done (wb : WordBox) : Bool :=
  wb.rows.length == wb.row_dim

/-- Source `WordBox::take_ith_characters`: the i-th character of each word.  The
source unwraps `chars().nth(i)`; the model returns 'A' out of range, and the
access theorems show the search only evaluates it in range. -/
def WordBox.take_ith_characters (words : List Word) (i : Nat) : Word :=
  words.map (fun wd => wd.getD i 'A')

/-- Source `WordBox::is_valid_move`: append the candidate hypothetically and require
every column prefix to have a completion of length `row_dim`. -/
def WordBox.is_valid_move (wb : WordBox) (wd : Word) (q : Word → Nat → List Word) : Bool :=
  (List.range wb.col_dim).all (fun i =>
    !((q (WordBox.take_ith_characters (wb.rows ++ [wd]) i) wb.row_dim).isEmpty))

/-- Source `WordBox::add_word`: a new box with the word appended to `rows` (and to
`cols` when the box is symmetric). -/
def WordBox.add_word (wb : WordBox) (wd : Word) : WordBox :=
  { wb with
    rows := wb.rows ++ [wd]
    cols := if wb.is_symmetric then wb.cols ++ [wd] else wb.cols }

/-- One step of `solve_word_box` on a popped, not-done box: the next-row
prefix is `cols[..][rows.len()]`, the candidates are its completions of
length `col_dim` that pass `is_valid_move`, and each child is pushed to the
front of the deque — so, as a list with the front first, the children appear
reversed before the remaining frontier. -/
def solveChildren (q : Word → Nat → List Word) (b : WordBox) : List WordBox :=
  (((q (WordBox.take_ith_characters b.cols b.rows.length) b.col_dim).filter
      (fun wd => WordBox.is_valid_move b wd q)).map
    (fun wd => WordBox.add_word b wd)).reverse

/-- Source `solve_word_box`, fuel-indexed.  The frontier starts as `[wb]`; each step
pops the front, returns the box when done, otherwise pushes every valid child
to the front.  `none` means the fuel ran out; `some r` is the value the Rust
loop returns. -/
def solveFuel (q : Word → Nat → List Word) : Nat → List WordBox → Option (Option WordBox)
  | 0, _ => none
  | _ + 1, [] => some none
  | fuel + 1, b :: rest =>
    if WordBox.is_done b then some (some b)
    else solveFuel q fuel (solveChildren q b ++ rest)

/-- The lexicon `main` builds for dimension `n`: `HashMapLexicon::initialize`
over the filtered word list with `lengths = vec![row_dim, col_dim]`
(`row_dim = col_dim = n`). -/
def driverLexicon (lines : List Word) (n : Nat) : HashMapLexicon :=
  HashMapLexicon.initialize (filter_words lines) [n, n]

/-- The query function the driver's search uses. -/
def driverQuery (lines : List Word) (n : Nat) : Word → Nat → List Word :=
  fun p L => HashMapLexicon.words_with_prefix (driverLexicon lines n) p L

/-- The seed box `main` passes to `solve_word_box` for the starting word `w`:
`rows = cols = [w]`, symmetric, square of side `n`. -/
def driverSeed (w : Word) (n : Nat) : WordBox :=
  { row_dim := n, col_dim := n, rows := [w], cols := [w], is_symmetric := true }

/-- The states the frontier search reaches from a seed: the seed itself, and
every valid child (as `solve_word_box` generates children) of a reached,
not-done state. -/
inductive Reaches (q : Word → Nat → List Word) : WordBox → WordBox → Prop
  | refl (b : WordBox) : Reaches q b b
  | step {b b' : WordBox} {c : Word} :
      Reaches q b b' →
      WordBox.is_done b' = false →
      c ∈ (q (WordBox.take_ith_characters b'.cols b'.rows.length) b'.col_dim).filter
            (fun wd => WordBox.is_valid_move b' wd q) →
      Reaches q b (WordBox.add_word b' c)

/-- A complete symmetric word box over the dictionary `dict`: `n` rows, each a
dictionary word of length `n`, whose letter grid equals its own transpose. -/
def SymBox (dict : List Word) (n : Nat) (ws : List Word) : Prop :=
  ws.length = n ∧ (∀ r ∈ ws, r ∈ dict ∧ r.length = n) ∧
  ∀ i j, i < n → j < n → (ws.getD i []).getD j 'A' = (ws.getD j []).getD i 'A'

/-- A complete symmetric word box whose first row (hence first column) is `w`. -/
def SymSolution (dict : List Word) (n : Nat) (w : Word) (ws : List Word) : Prop :=
  ws.head? = some w ∧ SymBox dict n ws

/-- The invariant of the driver's symmetric search: square of side `n`,
symmetric, `cols` mirrors `rows`, all placed rows retained words of length
`n`, and the placed grid symmetric so far. -/
def SymInv (dict : List Word) (n : Nat) (b : WordBox) : Prop :=
  b.row_dim = n ∧ b.col_dim = n ∧ b.is_symmetric = true ∧ b.cols = b.rows ∧
  (∀ r ∈ b.rows, r ∈ dict ∧ r.length = n) ∧
  ∀ i j, i < b.rows.length → j < b.rows.length →
    (b.rows.getD i []).getD j 'A' = (b.rows.getD j []).getD i 'A'

/-- The shape part of the symmetric invariant (enough for completeness). -/
def SymShape (n : Nat) (b : WordBox) : Prop :=
  b.row_dim = n ∧ b.col_dim = n ∧ b.is_symmetric = true ∧ b.cols = b.rows

/-- Termination measure of one frontier entry: `(N+1)^(rows still missing)`,
`N` a bound on how many candidates one query can return. -/
def boxMeasure (N : Nat) (b : WordBox) : Nat :=
  (N + 1) ^ (b.row_dim - b.rows.length)

/-- Termination measure of a frontier. -/
def frontierMeasure (N : Nat) (fr : List WordBox) : Nat :=
  (fr.map (boxMeasure N)).sum

/-- Rust byte length of a word: the sum of the UTF-8 sizes of its chars. -/
def byteLen (w : Word) : Nat :=
  (w.map Char.utf8Size).sum

/-- Rust `&word[..i]` at byte index `i`: the chars making up the first `i`
bytes, or `none` (the panic) when `i` is not a character boundary (or past the
end). -/
def byteSlice : Word → Nat → Option Word
  | _, 0 => some []
  | [], _ + 1 => none
  | c :: cs, i + 1 =>
    if c.utf8Size ≤ i + 1 then
      match byteSlice cs (i + 1 - c.utf8Size) with
      | some r => some (c :: r)
      | none => none
    else none

/-- The inner loop of `HashMapLexicon::initialize` at the byte level: slice
`wd[..i]` for every byte index `i = 0, ..., byteLen wd`; `none` when a slice
panics. -/
def insertAllPrefixesBytes (m : List (Word × List Word)) (wd : Word) :
    Option (List (Word × List Word)) :=
  (List.range (byteLen wd + 1)).foldlM
    (fun acc i =>
      match byteSlice wd i with
      | some k => some (mapPush acc k wd)
      | none => none)
    m

/-- Source `HashMapLexicon::initialize` at the byte level: retention tests the byte
length, and the prefix keys are byte slices; `none` models the panic. -/
def HashMapLexicon.initialize_bytes (words : List Word) (lengths : List Nat) :
    Option HashMapLexicon :=
  match words.foldlM
      (fun m wd =>
        if lengths.contains (byteLen wd) then insertAllPrefixesBytes m wd else some m)
      [] with
  | some m => some ⟨m⟩
  | none => none

/-- The seed of the C9 counterexample: every stored word has length
`col_dim = row_dim = 1`, but two rows are already present. -/
def overfullSeed : WordBox :=
  { row_dim := 1, col_dim := 1, rows := [['a'], ['a']], cols := [['a']], is_symmetric := true }

/-- A query returning nothing, for the C9 counterexample. -/
def emptyQuery : Word → Nat → List Word :=
  fun _ _ => []

/-! ### Panic-aware embedding of the search

The definitions above totalize `word.chars().nth(i).unwrap()` with a default
character; that is sound for the claims whose scope keeps every access in
bounds.  The claims about termination of `solve_word_box` on arbitrary boxes
also cover inputs on which the source panics, so the search is embedded a
second time with the panic made explicit: `none` from `take_ith_charactersP`
is the `unwrap` panic and it propagates through `is_valid_move` and the
frontier loop exactly as Rust unwinding would (in particular `is_valid_move`
returns `false` early and skips the later column accesses, as the source
does). -/

/-- Source `WordBox::take_ith_characters`, panic-aware: the i-th character of
each word; `none` models the `unwrap` panic when some word is shorter than
`i + 1` characters. -/
def take_ith_charactersP (words : List Word) (i : Nat) : Option Word :=
  words.mapM (fun wd => wd[i]?)

/-- The loop of `WordBox::is_valid_move` from column `i`, `cnt` columns left:
compute the column prefix (propagating the panic), return `false` as soon as
one column has no completion (so later columns are not accessed, as in the
source), `true` when all columns pass. -/
def validFromP (rows : List Word) (rd : Nat) (q : Word → Nat → List Word) :
    Nat → Nat → Option Bool
  | _, 0 => some true
  | i, cnt + 1 =>
    match take_ith_charactersP rows i with
    | none => none
    | some pfx =>
      if (q pfx rd).isEmpty then some false else validFromP rows rd q (i + 1) cnt

/-- Source `WordBox::is_valid_move`, panic-aware. -/
def is_valid_moveP (wb : WordBox) (wd : Word) (q : Word → Nat → List Word) : Option Bool :=
  validFromP (wb.rows ++ [wd]) wb.row_dim q 0 wb.col_dim

/-- The filtered candidate iteration of `solve_word_box`, panic-aware: keep
the words `is_valid_move` accepts, in order, propagating a panic raised while
testing any candidate. -/
def filterValidP (b : WordBox) (q : Word → Nat → List Word) : List Word → Option (List Word)
  | [] => some []
  | wd :: rest =>
    match is_valid_moveP b wd q with
    | none => none
    | some true =>
      match filterValidP b q rest with
      | none => none
      | some l => some (wd :: l)
    | some false => filterValidP b q rest

/-- How a run of the `solve_word_box` loop can end: aborting with the
`unwrap` panic, or returning (`finished none` is exhaustion, `finished (some
b)` a solution). -/
inductive SolveOutcome where
  | panicked : SolveOutcome
  | finished : Option WordBox → SolveOutcome
deriving DecidableEq

/-- Source `solve_word_box`, fuel-indexed and panic-aware: as `solveFuel`,
but the next-row-prefix access and the candidate filtering propagate the
`unwrap` panic.  `none` means the fuel ran out; `some r` is how the Rust call
actually ends. -/
def solveFuelP (q : Word → Nat → List Word) : Nat → List WordBox → Option SolveOutcome
  | 0, _ => none
  | _ + 1, [] => some (SolveOutcome.finished none)
  | fuel + 1, b :: rest =>
    if WordBox.is_done b then some (SolveOutcome.finished (some b))
    else
      match take_ith_charactersP b.cols b.rows.length with
      | none => some SolveOutcome.panicked
      | some pfx =>
        match filterValidP b q (q pfx b.col_dim) with
        | none => some SolveOutcome.panicked
        | some choices =>
          solveFuelP q fuel
            ((choices.map (fun wd => WordBox.add_word b wd)).reverse ++ rest)

/-! ## List helpers -/

theorem getD_append_lt {α : Type} (l l' : List α) (d : α) :
    ∀ i, i < l.length → (l ++ l').getD i d = l.getD i d := by
  induction l with
  | nil => intro i h; exact absurd h (Nat.not_lt_zero i)
  | cons a t ih =>
    intro i h
    cases i with
    | zero => rfl
    | succ j => exact ih j (Nat.lt_of_succ_lt_succ h)

theorem getD_append_self {α : Type} (l : List α) (x : α) (d : α) :
    (l ++ [x]).getD l.length d = x := by
  induction l with
  | nil => rfl
  | cons a t ih => exact ih

theorem getD_map_lt {α β : Type} (f : α → β) (l : List α) (d : β) (d' : α) :
    ∀ i, i < l.length → (l.map f).getD i d = f (l.getD i d') := by
  induction l with
  | nil => intro i h; exact absurd h (Nat.not_lt_zero i)
  | cons a t ih =>
    intro i h
    cases i with
    | zero => rfl
    | succ j => exact ih j (Nat.lt_of_succ_lt_succ h)

theorem getD_take_lt {α : Type} (l : List α) (d : α) :
    ∀ n i, i < n → (l.take n).getD i d = l.getD i d := by
  induction l with
  | nil => intro n i _; simp
  | cons a t ih =>
    intro n i h
    cases n with
    | zero => exact absurd h (Nat.not_lt_zero i)
    | succ m =>
      cases i with
      | zero => rfl
      | succ j => exact ih m j (Nat.lt_of_succ_lt_succ h)

theorem getD_mem_of_lt {α : Type} (l : List α) (d : α) :
    ∀ i, i < l.length → l.getD i d ∈ l := by
  induction l with
  | nil => intro i h; exact absurd h (Nat.not_lt_zero i)
  | cons a t ih =>
    intro i h
    cases i with
    | zero => exact List.mem_cons_self a t
    | succ j => exact List.mem_cons_of_mem a (ih j (Nat.lt_of_succ_lt_succ h))

theorem ext_getD {α : Type} (d : α) :
    ∀ l₁ l₂ : List α, l₁.length = l₂.length →
      (∀ i, i < l₁.length → l₁.getD i d = l₂.getD i d) → l₁ = l₂ := by
  intro l₁
  induction l₁ with
  | nil =>
    intro l₂ hl _
    cases l₂ with
    | nil => rfl
    | cons b t => exact absurd hl (by simp)
  | cons a t ih =>
    intro l₂ hl h
    cases l₂ with
    | nil => exact absurd hl (by simp)
    | cons b t' =>
      have h0 : a = b := h 0 (Nat.succ_pos _)
      have ht : t = t' := by
        refine ih t' (by simpa using hl) ?_
        intro i hi
        exact h (i + 1) (Nat.succ_lt_succ hi)
      rw [h0, ht]

theorem take_succ_getD {α : Type} (d : α) :
    ∀ (l : List α) (k : Nat), k < l.length → l.take (k + 1) = l.take k ++ [l.getD k d] := by
  intro l
  induction l with
  | nil => intro k h; exact absurd h (Nat.not_lt_zero k)
  | cons a t ih =>
    intro k h
    cases k with
    | zero => rfl
    | succ j =>
      have := ih j (Nat.lt_of_succ_lt_succ h)
      simp only [List.take_succ_cons, List.getD, List.getElem?_cons_succ]
      simpa using this

theorem sum_map_le_length_mul {α : Type} (f : α → Nat) (c : Nat) :
    ∀ l : List α, (∀ x ∈ l, f x ≤ c) → (l.map f).sum ≤ l.length * c := by
  intro l
  induction l with
  | nil => intro _; simp
  | cons a t ih =>
    intro h
    simp only [List.map_cons, List.sum_cons, List.length_cons, Nat.succ_mul]
    have h1 : f a ≤ c := h a (List.mem_cons_self a t)
    have h2 : (t.map f).sum ≤ t.length * c := ih (fun x hx => h x (List.mem_cons_of_mem a hx))
    omega

theorem isEmpty_false_iff {α : Type} (l : List α) : l.isEmpty = false ↔ l ≠ [] := by
  cases l <;> simp

/-! ## starts_with -/

theorem starts_with_nil (w : Word) : starts_with w [] = true := by
  cases w <;> rfl

theorem starts_with_iff_take : ∀ w p : Word, starts_with w p = true ↔ w.take p.length = p := by
  intro w p
  induction p generalizing w with
  | nil => simp [starts_with_nil]
  | cons d p' ih =>
    cases w with
    | nil => simp [starts_with]
    | cons c w' =>
      simp only [starts_with, Bool.and_eq_true, beq_iff_eq, List.length_cons,
        List.take_succ_cons, List.cons_eq_cons]
      exact and_congr Iff.rfl (ih w')

theorem starts_with_length_le {w p : Word} (h : starts_with w p = true) : p.length ≤ w.length := by
  have := (starts_with_iff_take w p).1 h
  have hlen : (w.take p.length).length = p.length := by rw [this]
  rw [List.length_take] at hlen
  omega

theorem starts_with_getD {w p : Word} (h : starts_with w p = true) (d : Char) :
    ∀ j, j < p.length → w.getD j d = p.getD j d := by
  intro j hj
  have := (starts_with_iff_take w p).1 h
  calc w.getD j d = (w.take p.length).getD j d := (getD_take_lt w d p.length j hj).symm
    _ = p.getD j d := by rw [this]

/-! ## Association-list map characterization -/

theorem mapGet_mapPush (k v p : Word) :
    ∀ m, mapGet (mapPush m k v) p = mapGet m p ++ (if k = p then [v] else []) := by
  intro m
  induction m with
  | nil =>
    by_cases h : k = p
    · simp [mapPush, mapGet, h]
    · simp [mapPush, mapGet, h]
  | cons e rest ih =>
    obtain ⟨k0, vs⟩ := e
    by_cases h0 : k0 = k
    · subst h0
      by_cases hp : k0 = p
      · subst hp; simp [mapPush, mapGet]
      · simp [mapPush, mapGet, hp]
    · by_cases hp : k0 = p
      · subst hp
        have hk : k ≠ k0 := fun h => h0 h.symm
        simp [mapPush, mapGet, h0, hk]
      · simp [mapPush, mapGet, h0, hp, ih]

theorem mapGet_foldl_push (wd p : Word) :
    ∀ (is : List Nat) (m),
      mapGet (is.foldl (fun acc i => mapPush acc (wd.take i) wd) m) p =
        mapGet m p ++ (is.filter (fun i => wd.take i == p)).map (fun _ => wd) := by
  intro is
  induction is with
  | nil => intro m; simp
  | cons i t ih =>
    intro m
    simp only [List.foldl_cons, List.filter_cons]
    by_cases h : wd.take i = p
    · have hb : (wd.take i == p) = true := beq_iff_eq.mpr h
      rw [ih, mapGet_mapPush, if_pos h, hb]
      simp
    · have hb : (wd.take i == p) = false := beq_eq_false_iff_ne.mpr h
      rw [ih, mapGet_mapPush, if_neg h, hb]
      simp

theorem range_succ_filter_eq :
    ∀ n c : Nat, c ≤ n → (List.range (n + 1)).filter (fun i => i == c) = [c] := by
  intro n
  induction n with
  | zero =>
    intro c hc
    interval_cases c
    rfl
  | succ m ih =>
    intro c hc
    rw [List.range_succ, List.filter_append]
    by_cases h : c = m + 1
    · subst h
      have h1 : (List.range (m + 1 + 1 - 1)).filter (fun i => i == m + 1) = [] := by
        refine List.filter_eq_nil_iff.mpr ?_
        intro a ha
        have : a < m + 1 := List.mem_range.mp (by simpa using ha)
        simp only [beq_iff_eq]
        omega
      simpa using h1
    · have hc' : c ≤ m := by omega
      rw [ih c hc']
      have : ((m + 1 == c) : Bool) = false := beq_eq_false_iff_ne.mpr (fun hh => h hh.symm)
      simp [this]

theorem range_filter_take (wd p : Word) :
    (List.range (wd.length + 1)).filter (fun i => wd.take i == p) =
      if starts_with wd p = true then [p.length] else [] := by
  have hcongr : ∀ i ∈ List.range (wd.length + 1),
      (wd.take i == p) = (i == p.length && wd.take p.length == p) := by
    intro i hi
    have hi' : i ≤ wd.length := by
      have := List.mem_range.mp hi; omega
    by_cases h : wd.take i = p
    · have hlen : i = p.length := by
        have : (wd.take i).length = p.length := by rw [h]
        rw [List.length_take] at this
        omega
      subst hlen
      simp [h]
    · have hb : (wd.take i == p) = false := beq_eq_false_iff_ne.mpr h
      rw [hb]
      by_cases hip : i = p.length
      · subst hip
        simp [beq_eq_false_iff_ne.mpr h]
      · simp [beq_eq_false_iff_ne.mpr hip]
  rw [List.filter_congr hcongr]
  by_cases hsw : starts_with wd p = true
  · have htake : wd.take p.length = p := (starts_with_iff_take wd p).1 hsw
    have hle : p.length ≤ wd.length := starts_with_length_le hsw
    have hb : (wd.take p.length == p) = true := beq_iff_eq.mpr htake
    rw [if_pos hsw]
    calc (List.range (wd.length + 1)).filter (fun i => i == p.length && wd.take p.length == p)
        = (List.range (wd.length + 1)).filter (fun i => i == p.length) := by
          refine List.filter_congr ?_
          intro i _
          rw [hb, Bool.and_true]
      _ = [p.length] := range_succ_filter_eq wd.length p.length hle
  · have htake : wd.take p.length ≠ p := fun h => hsw ((starts_with_iff_take wd p).2 h)
    have hb : (wd.take p.length == p) = false := beq_eq_false_iff_ne.mpr htake
    rw [if_neg hsw]
    refine List.filter_eq_nil_iff.mpr ?_
    intro a _
    rw [hb, Bool.and_false]
    simp

theorem mapGet_insertAllPrefixes (m : List (Word × List Word)) (wd p : Word) :
    mapGet (insertAllPrefixes m wd) p =
      mapGet m p ++ (if starts_with wd p = true then [wd] else []) := by
  rw [insertAllPrefixes, mapGet_foldl_push, range_filter_take]
  by_cases h : starts_with wd p = true
  · simp [h]
  · simp [h]

theorem mapGet_initialize (words : List Word) (lengths : List Nat) (p : Word) :
    mapGet ( HashMapLexicon.initialize words lengths).words p =
      (words.filter (fun wd => lengths.contains wd.length && starts_with wd p)).map id := by
  suffices h : ∀ (ws : List Word) (m),
      mapGet (ws.foldl
        (fun acc wd => if lengths.contains wd.length then insertAllPrefixes acc wd else acc) m) p =
      mapGet m p ++ (ws.filter (fun wd => lengths.contains wd.length && starts_with wd p)).map id by
    have := h words []
    simpa [ HashMapLexicon.initialize] using this
  intro ws
  induction ws with
  | nil => intro m; simp
  | cons wd t ih =>
    intro m
    simp only [List.foldl_cons, List.filter_cons]
    by_cases hlen : lengths.contains wd.length = true
    · have hmem : wd.length ∈ lengths := by simpa using hlen
      rw [if_pos hlen, ih, mapGet_insertAllPrefixes]
      by_cases hsw : starts_with wd p = true
      · simp [hlen, hsw, hmem]
      · have hsw' : starts_with wd p = false := by
          cases hb : starts_with wd p
          · rfl
          · exact absurd hb hsw
        simp [hlen, hsw', hmem]
    · have hlen' : lengths.contains wd.length = false := by
        cases hb : lengths.contains wd.length
        · rfl
        · exact absurd hb hlen
      have hmem : wd.length ∉ lengths := by simpa using hlen'
      rw [if_neg hlen]
      rw [ih]
      simp [hlen', hmem]

/-! ## Lexicon query characterizations -/

theorem HM_words_with_prefix_eq (words : List Word) (lengths : List Nat) (p : Word) (L : Nat) :
    HashMapLexicon.words_with_prefix ( HashMapLexicon.initialize words lengths) p L =
      words.filter (fun wd => lengths.contains wd.length && (starts_with wd p && wd.length == L)) := by
  rw [ HashMapLexicon.words_with_prefix, mapGet_initialize, List.map_id, List.filter_filter]
  refine List.filter_congr ?_
  intro wd _
  cases lengths.contains wd.length <;> cases hs : starts_with wd p <;>
    cases hL : (wd.length == L : Bool) <;> simp [hs, hL]

theorem Vec_words_with_prefix_eq (words : List Word) (lengths : List Nat) (p : Word) (L : Nat) :
    VecLexicon.words_with_prefix ( VecLexicon.initialize words lengths) p L =
      words.filter (fun wd => lengths.contains wd.length && (starts_with wd p && wd.length == L)) := by
  rw [ VecLexicon.words_with_prefix, VecLexicon.initialize, List.filter_filter]
  refine List.filter_congr ?_
  intro wd _
  cases lengths.contains wd.length <;> cases hs : starts_with wd p <;>
    cases hL : (wd.length == L : Bool) <;> simp [hs, hL]

theorem HM_mem_words_with_prefix (words : List Word) (lengths : List Nat) (p : Word) (L : Nat)
    (wd : Word) :
    wd ∈ HashMapLexicon.words_with_prefix ( HashMapLexicon.initialize words lengths) p L ↔
      wd ∈ words ∧ lengths.contains wd.length = true ∧ starts_with wd p = true ∧
        wd.length = L := by
  rw [HM_words_with_prefix_eq, List.mem_filter]
  simp only [Bool.and_eq_true, beq_iff_eq]

theorem contains_pair_self (n : Nat) : ([n, n] : List Nat).contains n = true := by
  simp [List.contains]

theorem driverQuery_mem (lines : List Word) (n : Nat) (p : Word) (L : Nat) (wd : Word) :
    wd ∈ driverQuery lines n p L ↔
      wd ∈ filter_words lines ∧ ([n, n] : List Nat).contains wd.length = true ∧
        starts_with wd p = true ∧ wd.length = L := by
  rw [driverQuery, driverLexicon]
  exact HM_mem_words_with_prefix (filter_words lines) [n, n] p L wd

theorem driverQuery_mem_retained (lines : List Word) (n : Nat) (p : Word) (wd : Word) :
    wd ∈ driverQuery lines n p n ↔
      wd ∈ filter_words lines ∧ wd.length = n ∧ starts_with wd p = true := by
  rw [driverQuery_mem]
  constructor
  · rintro ⟨h1, _, h3, h4⟩
    exact ⟨h1, h4, h3⟩
  · rintro ⟨h1, h2, h3⟩
    refine ⟨h1, ?_, h3, h2⟩
    rw [h2]
    exact contains_pair_self n

/-! ## Claims C4, C5: lexicon queries -/

/-- Claim C4: for either lexicon built by `initialize(words, lengths)`, the
empty-prefix query `words_with_prefix("", L)` returns exactly the retained
input words of length `L` — those whose length is in `lengths` and equals
`L` — in input order. -/
theorem words_with_prefix_empty_returns_retained
    (words : List Word) (lengths : List Nat) (L : Nat) :
    VecLexicon.words_with_prefix ( VecLexicon.initialize words lengths) [] L =
      words.filter (fun wd => lengths.contains wd.length && wd.length == L) ∧
    HashMapLexicon.words_with_prefix ( HashMapLexicon.initialize words lengths) [] L =
      words.filter (fun wd => lengths.contains wd.length && wd.length == L) := by
  constructor
  · rw [Vec_words_with_prefix_eq]
    refine List.filter_congr ?_
    intro wd _
    rw [starts_with_nil]
    cases lengths.contains wd.length <;> cases hL : (wd.length == L : Bool) <;> simp [hL]
  · rw [HM_words_with_prefix_eq]
    refine List.filter_congr ?_
    intro wd _
    rw [starts_with_nil]
    cases lengths.contains wd.length <;> cases hL : (wd.length == L : Bool) <;> simp [hL]

/-- Claim C5: the two lexicon strategies are interchangeable — for every input
word list, length set, prefix and queried length, `VecLexicon` and
`HashMapLexicon` return the same list of words (a fortiori the same set). -/
theorem lexicon_strategies_agree (words : List Word) (lengths : List Nat) (p : Word) (L : Nat) :
    VecLexicon.words_with_prefix ( VecLexicon.initialize words lengths) p L =
      HashMapLexicon.words_with_prefix ( HashMapLexicon.initialize words lengths) p L := by
  rw [Vec_words_with_prefix_eq, HM_words_with_prefix_eq]

/-! ## Claim C6: the word filter -/

/-- Claim C6, counterexample: the line "123" survives `filter_words` although
it does not consist of lowercase alphabetic characters, so "kept iff lowercase
alphabetic whitespace-free" fails in the only-if direction. -/
theorem filter_words_keeps_non_alphabetic :
    filter_words [['1', '2', '3']] = [['1', '2', '3']] ∧
    ¬ ∀ c ∈ [('1' : Char), '2', '3'], c.isLower = true ∧ c.isAlpha = true := by
  constructor
  · decide
  · decide

/-- Claim C6 as amended: `filter_words` keeps a line iff none of its
characters is uppercase, ASCII punctuation or whitespace (so digits and other
non-alphabetic symbol-free characters are kept too); in particular "Cat",
"dog ", "bird!" are dropped and "fish" is kept. -/
theorem filter_words_characterization :
    (∀ (lines : List Word) (l : Word), l ∈ filter_words lines ↔
      l ∈ lines ∧ ∀ c ∈ l,
        c.isUpper = false ∧ is_ascii_punctuation c = false ∧ c.isWhitespace = false) ∧
    filter_words [['C', 'a', 't'], ['d', 'o', 'g', ' '], ['b', 'i', 'r', 'd', '!'],
        ['f', 'i', 's', 'h']] =
      [['f', 'i', 's', 'h']] := by
  constructor
  · intro lines l
    rw [filter_words, List.mem_filter, List.all_eq_true]
    refine and_congr Iff.rfl ?_
    refine forall_congr' fun c => ?_
    refine imp_congr Iff.rfl ?_
    cases c.isUpper <;> cases hp : is_ascii_punctuation c <;> cases hw : c.isWhitespace <;>
      simp [hp, hw]
  · decide

/-! ## Claim C7: is_valid_move -/

/-- Claim C7: for a box whose stored rows all have at least `col_dim`
characters and a candidate of length at least `col_dim`, `is_valid_move`
returns true iff, with the candidate appended as the next row, every column
position `i < col_dim` has at least one completion of length `row_dim` in the
lexicon. -/
theorem is_valid_move_iff_all_columns_completable
    (wb : WordBox) (cand : Word) (q : Word → Nat → List Word)
    (hrows : ∀ wd ∈ wb.rows, wb.col_dim ≤ wd.length)
    (hcand : wb.col_dim ≤ cand.length) :
    WordBox.is_valid_move wb cand q = true ↔
      ∀ i, i < wb.col_dim →
        q (WordBox.take_ith_characters (wb.rows ++ [cand]) i) wb.row_dim ≠ [] := by
  rw [WordBox.is_valid_move, List.all_eq_true]
  constructor
  · intro h i hi
    have := h i (List.mem_range.mpr hi)
    simp only [Bool.not_eq_true'] at this
    exact (isEmpty_false_iff _).1 this
  · intro h i hi
    have hne := h i (List.mem_range.mp hi)
    simp only [Bool.not_eq_true']
    exact (isEmpty_false_iff _).2 hne

/-- Claim C7 witness: a concrete instance with the hypotheses discharged. -/
theorem is_valid_move_iff_all_columns_completable_witness :
    (∀ wd ∈ (driverSeed ['a', 'a'] 2).rows, (driverSeed ['a', 'a'] 2).col_dim ≤ wd.length) ∧
    ((driverSeed ['a', 'a'] 2).col_dim ≤ (['a', 'a'] : Word).length) ∧
    (WordBox.is_valid_move (driverSeed ['a', 'a'] 2) ['a', 'a']
        (driverQuery [['a', 'a']] 2) = true ↔
      ∀ i, i < (driverSeed ['a', 'a'] 2).col_dim →
        driverQuery [['a', 'a']] 2
          (WordBox.take_ith_characters ((driverSeed ['a', 'a'] 2).rows ++ [['a', 'a']]) i)
          (driverSeed ['a', 'a'] 2).row_dim ≠ []) :=
  ⟨by decide, by decide,
    is_valid_move_iff_all_columns_completable (driverSeed ['a', 'a'] 2) ['a', 'a']
      (driverQuery [['a', 'a']] 2) (by decide) (by decide)⟩

/-! ## Claim C8: add_word is a pure frame-preserving append -/

/-- Claim C8: `add_word` builds a new box — the receiver is a value that is
read only — whose `rows` is the receiver's `rows` with the word appended,
whose `cols` gains the word exactly when the box is symmetric, and whose
dimensions and symmetry flag are unchanged. -/
theorem add_word_appends_and_preserves (b : WordBox) (wd : Word) :
    (WordBox.add_word b wd).rows = b.rows ++ [wd] ∧
    (WordBox.add_word b wd).cols = (if b.is_symmetric then b.cols ++ [wd] else b.cols) ∧
    (WordBox.add_word b wd).row_dim = b.row_dim ∧
    (WordBox.add_word b wd).col_dim = b.col_dim ∧
    (WordBox.add_word b wd).is_symmetric = b.is_symmetric := by
  refine ⟨rfl, rfl, rfl, rfl, rfl⟩

/-! ## solveFuel step lemmas -/

theorem solveFuel_cons_done (q : Word → Nat → List Word) (fuel : Nat) (b : WordBox)
    (rest : List WordBox) (h : WordBox.is_done b = true) :
    solveFuel q (fuel + 1) (b :: rest) = some (some b) := by
  simp [solveFuel, h]

theorem solveFuel_cons_not_done (q : Word → Nat → List Word) (fuel : Nat) (b : WordBox)
    (rest : List WordBox) (h : WordBox.is_done b = false) :
    solveFuel q (fuel + 1) (b :: rest) = solveFuel q fuel (solveChildren q b ++ rest) := by
  simp [solveFuel, h]

theorem mem_solveChildren (q : Word → Nat → List Word) (b : WordBox) (x : WordBox) :
    x ∈ solveChildren q b ↔
      ∃ c, c ∈ q (WordBox.take_ith_characters b.cols b.rows.length) b.col_dim ∧
        WordBox.is_valid_move b c q = true ∧ x = WordBox.add_word b c := by
  rw [solveChildren, List.mem_reverse]
  constructor
  · intro hx
    obtain ⟨c, hc, hxc⟩ := List.mem_map.1 hx
    obtain ⟨hcq, hcv⟩ := List.mem_filter.1 hc
    exact ⟨c, hcq, hcv, hxc.symm⟩
  · rintro ⟨c, hcq, hcv, rfl⟩
    exact List.mem_map.2 ⟨c, List.mem_filter.2 ⟨hcq, hcv⟩, rfl⟩

theorem solveFuel_some_done (q : Word → Nat → List Word) :
    ∀ fuel fr b, solveFuel q fuel fr = some (some b) → WordBox.is_done b = true := by
  intro fuel
  induction fuel with
  | zero =>
    intro fr b h
    exact absurd h (by simp [solveFuel])
  | succ f ih =>
    intro fr b h
    cases fr with
    | nil => simp [solveFuel] at h
    | cons b0 rest =>
      cases hd : WordBox.is_done b0 with
      | false =>
        rw [solveFuel_cons_not_done q f b0 rest hd] at h
        exact ih _ b h
      | true =>
        rw [solveFuel_cons_done q f b0 rest hd] at h
        have hb : b0 = b := by
          injection h with h1
          injection h1
        rw [← hb]
        exact hd

theorem not_done_length_ne {b : WordBox} (h : WordBox.is_done b = false) :
    b.rows.length ≠ b.row_dim := by
  rw [WordBox.is_done] at h
  exact beq_eq_false_iff_ne.mp h

/-! ## Claim C1: soundness of the driver's symmetric search -/

theorem symInv_step (lines : List Word) (n : Nat) (b : WordBox) (c : Word)
    (hInv : SymInv (filter_words lines) n b)
    (hnd : WordBox.is_done b = false)
    (hc : c ∈ driverQuery lines n
        (WordBox.take_ith_characters b.cols b.rows.length) b.col_dim) :
    SymInv (filter_words lines) n (WordBox.add_word b c) := by
  obtain ⟨hrd, hcd, hsym, hcr, hret, hgrid⟩ := hInv
  rw [hcd] at hc
  obtain ⟨hcdict, hclen, hcsw⟩ := (driverQuery_mem_retained lines n _ c).1 hc
  have hplen : (WordBox.take_ith_characters b.cols b.rows.length).length = b.rows.length := by
    rw [WordBox.take_ith_characters, List.length_map, hcr]
  have hkn : b.rows.length ≤ n := by
    have h1 := starts_with_length_le hcsw
    rw [hplen] at h1
    omega
  have hpoint : ∀ j, j < b.rows.length →
      c.getD j 'A' = (b.rows.getD j []).getD b.rows.length 'A' := by
    intro j hj
    have h1 : c.getD j 'A' =
        (WordBox.take_ith_characters b.cols b.rows.length).getD j 'A' :=
      starts_with_getD hcsw 'A' j (by rw [hplen]; exact hj)
    have hjc : j < b.cols.length := by rw [hcr]; exact hj
    rw [h1, WordBox.take_ith_characters,
      getD_map_lt (fun wd => wd.getD b.rows.length 'A') b.cols 'A' [] j hjc, hcr]
  have hA : ∀ m, m < b.rows.length → (b.rows ++ [c]).getD m [] = b.rows.getD m [] :=
    fun m hm => getD_append_lt b.rows [c] [] m hm
  have hB : (b.rows ++ [c]).getD b.rows.length [] = c := getD_append_self b.rows c []
  refine ⟨hrd, hcd, ?_, ?_, ?_, ?_⟩
  · simp [WordBox.add_word, hsym]
  · show (if b.is_symmetric then b.cols ++ [c] else b.cols) = b.rows ++ [c]
    rw [hsym]
    simp [hcr]
  · intro r hr
    rcases List.mem_append.1 hr with h | h
    · exact hret r h
    · have : r = c := List.mem_singleton.1 h
      rw [this]
      exact ⟨hcdict, hclen⟩
  · show ∀ i j, i < (b.rows ++ [c]).length → j < (b.rows ++ [c]).length →
      ((b.rows ++ [c]).getD i []).getD j 'A' = ((b.rows ++ [c]).getD j []).getD i 'A'
    have hlen' : (b.rows ++ [c]).length = b.rows.length + 1 := by simp
    intro i j hi hj
    rw [hlen'] at hi hj
    rcases Nat.lt_succ_iff_lt_or_eq.1 hi with hik | hik
    · rcases Nat.lt_succ_iff_lt_or_eq.1 hj with hjk | hjk
      · rw [hA i hik, hA j hjk]
        exact hgrid i j hik hjk
      · subst hjk
        rw [hA i hik, hB, hpoint i hik]
    · subst hik
      rcases Nat.lt_succ_iff_lt_or_eq.1 hj with hjk | hjk
      · rw [hA j hjk, hB, hpoint j hjk]
      · subst hjk
        rfl

theorem solveFuel_symInv (lines : List Word) (n : Nat) :
    ∀ fuel fr b, (∀ x ∈ fr, SymInv (filter_words lines) n x) →
      solveFuel (driverQuery lines n) fuel fr = some (some b) →
      SymInv (filter_words lines) n b ∧ WordBox.is_done b = true := by
  intro fuel
  induction fuel with
  | zero =>
    intro fr b _ h
    exact absurd h (by simp [solveFuel])
  | succ f ih =>
    intro fr b hfr h
    cases fr with
    | nil => simp [solveFuel] at h
    | cons b0 rest =>
      cases hd : WordBox.is_done b0 with
      | true =>
        rw [solveFuel_cons_done _ f b0 rest hd] at h
        have hb : b0 = b := by
          injection h with h1
          injection h1
        rw [← hb]
        exact ⟨hfr b0 (List.mem_cons_self b0 rest), hd⟩
      | false =>
        rw [solveFuel_cons_not_done _ f b0 rest hd] at h
        refine ih _ b ?_ h
        intro x hx
        rcases List.mem_append.1 hx with hxc | hxr
        · obtain ⟨c, hcq, _, rfl⟩ := (mem_solveChildren _ b0 x).1 hxc
          exact symInv_step lines n b0 c (hfr b0 (List.mem_cons_self b0 rest)) hd hcq
        · exact hfr x (List.mem_cons_of_mem b0 hxr)

/-- Claim C1: every box `solve_word_box` returns from a driver seed (rows =
cols = [w] for a word `w` the driver draws from the empty-prefix query,
symmetric, square of side `n`, over the lexicon built from the filtered word
set) is done with exactly `n` rows, every row is a retained dictionary word of
length `n`, the grid equals its own transpose, and consequently every column
spells the same retained dictionary word as the corresponding row. -/
theorem solve_word_box_symmetric_sound (lines : List Word) (n fuel : Nat) (w : Word)
    (b : WordBox)
    (hw : w ∈ driverQuery lines n [] n)
    (hrun : solveFuel (driverQuery lines n) fuel [driverSeed w n] = some (some b)) :
    WordBox.is_done b = true ∧ b.rows.length = n ∧
    (∀ r ∈ b.rows, r ∈ filter_words lines ∧ r.length = n) ∧
    (∀ i j, i < n → j < n →
      (b.rows.getD i []).getD j 'A' = (b.rows.getD j []).getD i 'A') ∧
    (∀ j, j < n → WordBox.take_ith_characters b.rows j = b.rows.getD j []) := by
  obtain ⟨hwd, hwlen, _⟩ := (driverQuery_mem_retained lines n [] w).1 hw
  have hseed : SymInv (filter_words lines) n (driverSeed w n) := by
    refine ⟨rfl, rfl, rfl, rfl, ?_, ?_⟩
    · intro r hr
      have : r = w := List.mem_singleton.1 hr
      rw [this]
      exact ⟨hwd, hwlen⟩
    · intro i j hi hj
      have hi0 : i = 0 := by
        simp only [driverSeed, List.length_cons, List.length_nil] at hi
        omega
      have hj0 : j = 0 := by
        simp only [driverSeed, List.length_cons, List.length_nil] at hj
        omega
      rw [hi0, hj0]
  obtain ⟨⟨hrd, hcd, hsym, hcr, hret, hgrid⟩, hdone⟩ :=
    solveFuel_symInv lines n fuel [driverSeed w n] b
      (by intro x hx; rw [List.mem_singleton.1 hx]; exact hseed) hrun
  have hblen : b.rows.length = n := by
    rw [WordBox.is_done] at hdone
    have := beq_iff_eq.mp hdone
    omega
  refine ⟨hdone, hblen, hret, ?_, ?_⟩
  · intro i j hi hj
    exact hgrid i j (by omega) (by omega)
  · intro j hj
    have hjlen : (b.rows.getD j []).length = n :=
      (hret (b.rows.getD j []) (getD_mem_of_lt b.rows [] j (by omega))).2
    refine ext_getD 'A' _ _ ?_ ?_
    · rw [WordBox.take_ith_characters, List.length_map, hblen, hjlen]
    · intro i hi
      rw [WordBox.take_ith_characters, List.length_map, hblen] at hi
      rw [WordBox.take_ith_characters,
        getD_map_lt (fun wd => wd.getD j 'A') b.rows 'A' [] i (by omega)]
      exact hgrid i j (by omega) (by omega)

/-- Claim C1 witness: the dictionary \x7b"aa"\x7d, n = 2; the search from seed
"aa" returns the box with rows ["aa", "aa"], and the theorem's conclusions
hold of it. -/
theorem solve_word_box_symmetric_sound_witness :
    (['a', 'a'] : Word) ∈ driverQuery [['a', 'a']] 2 [] 2 ∧
    solveFuel (driverQuery [['a', 'a']] 2) 2 [driverSeed ['a', 'a'] 2] =
      some (some (WordBox.mk 2 2 [['a', 'a'], ['a', 'a']] [['a', 'a'], ['a', 'a']] true)) ∧
    (WordBox.is_done (WordBox.mk 2 2 [['a', 'a'], ['a', 'a']] [['a', 'a'], ['a', 'a']] true) =
        true ∧
      (WordBox.mk 2 2 [['a', 'a'], ['a', 'a']] [['a', 'a'], ['a', 'a']] true).rows.length = 2 ∧
      (∀ r ∈ (WordBox.mk 2 2 [['a', 'a'], ['a', 'a']] [['a', 'a'], ['a', 'a']] true).rows,
        r ∈ filter_words [['a', 'a']] ∧ r.length = 2) ∧
      (∀ i j, i < 2 → j < 2 →
        (((WordBox.mk 2 2 [['a', 'a'], ['a', 'a']] [['a', 'a'], ['a', 'a']] true).rows.getD
            i []).getD j 'A' =
          ((WordBox.mk 2 2 [['a', 'a'], ['a', 'a']] [['a', 'a'], ['a', 'a']]
            true).rows.getD j []).getD i 'A')) ∧
      (∀ j, j < 2 →
        WordBox.take_ith_characters
            (WordBox.mk 2 2 [['a', 'a'], ['a', 'a']] [['a', 'a'], ['a', 'a']] true).rows j =
          (WordBox.mk 2 2 [['a', 'a'], ['a', 'a']] [['a', 'a'], ['a', 'a']]
            true).rows.getD j [])) :=
  ⟨by decide, by decide,
    solve_word_box_symmetric_sound [['a', 'a']] 2 2 ['a', 'a']
      (WordBox.mk 2 2 [['a', 'a'], ['a', 'a']] [['a', 'a'], ['a', 'a']] true)
      (by decide) (by decide)⟩

/-! ## Claim C2: completeness of the driver's symmetric search -/

theorem is_valid_move_of_nonempty (wb : WordBox) (cand : Word) (q : Word → Nat → List Word)
    (h : ∀ i, i < wb.col_dim →
      q (WordBox.take_ith_characters (wb.rows ++ [cand]) i) wb.row_dim ≠ []) :
    WordBox.is_valid_move wb cand q = true := by
  rw [WordBox.is_valid_move, List.all_eq_true]
  intro i hi
  have hne := h i (List.mem_range.mp hi)
  simp only [Bool.not_eq_true']
  exact (isEmpty_false_iff _).2 hne

theorem symShape_add (n : Nat) (b : WordBox) (c : Word) (h : SymShape n b) :
    SymShape n (WordBox.add_word b c) := by
  obtain ⟨hrd, hcd, hsym, hcr⟩ := h
  refine ⟨hrd, hcd, ?_, ?_⟩
  · simp [WordBox.add_word, hsym]
  · show (if b.is_symmetric then b.cols ++ [c] else b.cols) = b.rows ++ [c]
    rw [hsym]
    simp [hcr]

theorem solveFuel_complete (lines : List Word) (n : Nat) :
    ∀ fuel fr, (∀ x ∈ fr, SymShape n x) →
      solveFuel (driverQuery lines n) fuel fr = some none →
      ∀ x ∈ fr, ∀ ws, SymBox (filter_words lines) n ws →
        x.rows = ws.take x.rows.length → False := by
  intro fuel
  induction fuel with
  | zero =>
    intro fr _ h
    exact absurd h (by simp [solveFuel])
  | succ f ih =>
    intro fr hfr h x hx ws hws hpre
    cases fr with
    | nil => exact absurd hx (List.not_mem_nil x)
    | cons b0 rest =>
      cases hd : WordBox.is_done b0 with
      | true =>
        rw [solveFuel_cons_done _ f b0 rest hd] at h
        injection h with h1
        exact Option.noConfusion h1
      | false =>
        rw [solveFuel_cons_not_done _ f b0 rest hd] at h
        have hfr' : ∀ y ∈ solveChildren (driverQuery lines n) b0 ++ rest, SymShape n y := by
          intro y hy
          rcases List.mem_append.1 hy with hyc | hyr
          · obtain ⟨c', _, _, rfl⟩ := (mem_solveChildren _ b0 y).1 hyc
            exact symShape_add n b0 c' (hfr b0 (List.mem_cons_self b0 rest))
          · exact hfr y (List.mem_cons_of_mem b0 hyr)
        rcases List.mem_cons.1 hx with rfl | hxr
        · -- the popped box is the one the solution extends
          obtain ⟨hrd, hcd, hsym, hcr⟩ := hfr x (List.mem_cons_self x rest)
          obtain ⟨hlen, hret, hgrid⟩ := hws
          have hkle : x.rows.length ≤ n := by
            have h1 : x.rows.length = (ws.take x.rows.length).length := by rw [← hpre]
            rw [List.length_take, hlen] at h1
            omega
          have hkn : x.rows.length < n := by
            have := not_done_length_ne hd
            rw [hrd] at this
            omega
          set k := x.rows.length with hkdef
          have hkws : k < ws.length := by omega
          have hrow_eq : ∀ j, j < k → x.rows.getD j [] = ws.getD j [] := by
            intro j hj
            rw [hpre, getD_take_lt ws [] k j hj]
          set c := ws.getD k [] with hcdef
          have hcmem : c ∈ ws := getD_mem_of_lt ws [] k hkws
          obtain ⟨hcdict, hclen⟩ := hret c hcmem
          have hclen' : c.length = n := hclen
          have hcolslen : x.cols.length = k := by rw [hcr]
          have hplen : (WordBox.take_ith_characters x.cols k).length = k := by
            rw [WordBox.take_ith_characters, List.length_map, hcolslen]
          -- c starts with the forced prefix
          have hpfact : ∀ j, j < k →
              (WordBox.take_ith_characters x.cols k).getD j 'A' = (ws.getD j []).getD k 'A' := by
            intro j hj
            have hjc : j < x.cols.length := by omega
            rw [WordBox.take_ith_characters,
              getD_map_lt (fun wd => wd.getD k 'A') x.cols 'A' [] j hjc, hcr, hrow_eq j hj]
          have hcsw : starts_with c (WordBox.take_ith_characters x.cols k) = true := by
            rw [starts_with_iff_take, hplen]
            refine ext_getD 'A' _ _ ?_ ?_
            · rw [List.length_take, hplen, hclen']
              omega
            · intro j hj
              rw [List.length_take, hclen'] at hj
              have hjk : j < k := by omega
              rw [getD_take_lt c 'A' k j hjk, hpfact j hjk]
              exact hgrid k j (by omega) (by omega)
          have hcq : c ∈ driverQuery lines n (WordBox.take_ith_characters x.cols k) n :=
            (driverQuery_mem_retained lines n _ c).2 ⟨hcdict, hclen', hcsw⟩
          -- c is a valid move: each column keeps a completion (row i of the solution)
          have hvalid : WordBox.is_valid_move x c (driverQuery lines n) = true := by
            refine is_valid_move_of_nonempty x c (driverQuery lines n) ?_
            intro i hi
            rw [hcd] at hi
            have hilen : (x.rows ++ [c]).length = k + 1 := by simp
            have hiws : (ws.getD i []) ∈
                driverQuery lines n (WordBox.take_ith_characters (x.rows ++ [c]) i)
                  x.row_dim := by
              rw [hrd]
              refine (driverQuery_mem_retained lines n _ _).2 ?_
              obtain ⟨hidict, hilen'⟩ := hret (ws.getD i []) (getD_mem_of_lt ws [] i (by omega))
              refine ⟨hidict, hilen', ?_⟩
              rw [starts_with_iff_take]
              have hpl : (WordBox.take_ith_characters (x.rows ++ [c]) i).length = k + 1 := by
                rw [WordBox.take_ith_characters, List.length_map, hilen]
              rw [hpl]
              refine ext_getD 'A' _ _ ?_ ?_
              · rw [List.length_take, WordBox.take_ith_characters, List.length_map, hilen,
                  hilen']
                omega
              · intro j hj
                rw [List.length_take, hilen'] at hj
                have hjk1 : j < k + 1 := by omega
                rw [getD_take_lt _ 'A' (k + 1) j hjk1, WordBox.take_ith_characters,
                  getD_map_lt (fun wd => wd.getD i 'A') (x.rows ++ [c]) 'A' [] j
                    (by rw [hilen]; exact hjk1)]
                have hj_eq : (x.rows ++ [c]).getD j [] = ws.getD j [] := by
                  rcases Nat.lt_succ_iff_lt_or_eq.1 hjk1 with hjk | hjk
                  · rw [getD_append_lt x.rows [c] [] j hjk, hrow_eq j hjk]
                  · rw [hjk, getD_append_self x.rows c []]
                rw [hj_eq]
                exact hgrid i j (by omega) (by omega)
            exact List.ne_nil_of_mem hiws
          -- the child extends the solution one row further
          have hchild : WordBox.add_word x c ∈ solveChildren (driverQuery lines n) x :=
            (mem_solveChildren _ x _).2 ⟨c, by rw [hcd]; exact hcq, hvalid, rfl⟩
          refine ih _ hfr' h (WordBox.add_word x c)
            (List.mem_append.2 (Or.inl hchild)) ws ⟨hlen, hret, hgrid⟩ ?_
          show x.rows ++ [c] = ws.take (x.rows ++ [c]).length
          have hlen1 : (x.rows ++ [c]).length = k + 1 := by simp
          rw [hlen1, take_succ_getD [] ws k hkws, ← hpre, ← hcdef]
        · exact ih _ hfr' h x (List.mem_append.2 (Or.inr hxr)) ws hws hpre

/-- Claim C2: if the driver's symmetric search for starting word `w` exhausts
its frontier and reports no solution, then no complete `n × n` symmetric word
box over the retained dictionary words has `w` as its first row/column. -/
theorem solve_word_box_exhaustion_complete (lines : List Word) (n fuel : Nat) (w : Word)
    (hrun : solveFuel (driverQuery lines n) fuel [driverSeed w n] = some none) :
    ∀ ws, ¬ SymSolution (filter_words lines) n w ws := by
  intro ws hsol
  obtain ⟨hhead, hbox⟩ := hsol
  have hshape : ∀ x ∈ [driverSeed w n], SymShape n x := by
    intro x hx
    rw [List.mem_singleton.1 hx]
    exact ⟨rfl, rfl, rfl, rfl⟩
  refine solveFuel_complete lines n fuel [driverSeed w n] hshape hrun (driverSeed w n)
    (List.mem_singleton.2 rfl) ws hbox ?_
  cases ws with
  | nil => exact absurd hhead (by simp)
  | cons w0 t =>
    have hw0 : w0 = w := by simpa using hhead
    show [w] = (w0 :: t).take 1
    rw [hw0]
    rfl

/-- Claim C2 witness: dictionary \x7b"ab"\x7d, n = 2, seed "ab"; the search
exhausts (the forced second-row prefix "b" has no completion), and indeed no
symmetric 2 × 2 box over \x7b"ab"\x7d starts with "ab". -/
theorem solve_word_box_exhaustion_complete_witness :
    solveFuel (driverQuery [['a', 'b']] 2) 2 [driverSeed ['a', 'b'] 2] = some none ∧
    ∀ ws, ¬ SymSolution (filter_words [['a', 'b']]) 2 ['a', 'b'] ws :=
  ⟨by decide, solve_word_box_exhaustion_complete [['a', 'b']] 2 2 ['a', 'b'] (by decide)⟩

/-! ## Claim C3: termination of the frontier search -/

theorem frontierMeasure_append (N : Nat) (xs ys : List WordBox) :
    frontierMeasure N (xs ++ ys) = frontierMeasure N xs + frontierMeasure N ys := by
  rw [frontierMeasure, frontierMeasure, frontierMeasure, List.map_append, List.sum_append]

theorem frontierMeasure_reverse (N : Nat) (xs : List WordBox) :
    frontierMeasure N xs.reverse = frontierMeasure N xs := by
  rw [frontierMeasure, frontierMeasure, List.map_reverse, List.sum_reverse]

theorem solveChildren_measure (q : Word → Nat → List Word) (N : Nat)
    (hq : ∀ p L, (q p L).length ≤ N) (b : WordBox)
    (hlt : b.rows.length < b.row_dim) :
    frontierMeasure N (solveChildren q b) + 1 ≤ boxMeasure N b := by
  set e := b.row_dim - b.rows.length with he
  have he1 : 1 ≤ e := by omega
  have hchild : ∀ x ∈ solveChildren q b, boxMeasure N x = (N + 1) ^ (e - 1) := by
    intro x hx
    obtain ⟨c, _, _, rfl⟩ := (mem_solveChildren q b x).1 hx
    rw [boxMeasure]
    have h1 : (WordBox.add_word b c).rows.length = b.rows.length + 1 := by
      simp [WordBox.add_word]
    have h2 : (WordBox.add_word b c).row_dim = b.row_dim := rfl
    rw [h1, h2]
    have h3 : b.row_dim - (b.rows.length + 1) = e - 1 := by omega
    rw [h3]
  have hcount : (solveChildren q b).length ≤ N := by
    rw [solveChildren, List.length_reverse, List.length_map]
    calc ((q (WordBox.take_ith_characters b.cols b.rows.length) b.col_dim).filter
          (fun wd => WordBox.is_valid_move b wd q)).length
        ≤ (q (WordBox.take_ith_characters b.cols b.rows.length) b.col_dim).length :=
          List.length_filter_le _ _
      _ ≤ N := hq _ _
  have hsum : frontierMeasure N (solveChildren q b) ≤ N * (N + 1) ^ (e - 1) := by
    rw [frontierMeasure]
    calc ((solveChildren q b).map (boxMeasure N)).sum
        ≤ (solveChildren q b).length * ((N + 1) ^ (e - 1)) := by
          refine sum_map_le_length_mul (boxMeasure N) ((N + 1) ^ (e - 1)) _ ?_
          intro x hx
          rw [hchild x hx]
      _ ≤ N * (N + 1) ^ (e - 1) := Nat.mul_le_mul_right _ hcount
  have hpow : (N + 1) ^ e = N * (N + 1) ^ (e - 1) + (N + 1) ^ (e - 1) := by
    have h2 : e = (e - 1) + 1 := by omega
    calc (N + 1) ^ e = (N + 1) ^ ((e - 1) + 1) := by rw [← h2]
      _ = (N + 1) ^ (e - 1) * (N + 1) := pow_succ (N + 1) (e - 1)
      _ = N * (N + 1) ^ (e - 1) + (N + 1) ^ (e - 1) := by ring
  have hpos : 1 ≤ (N + 1) ^ (e - 1) := Nat.one_le_pow _ _ (by omega)
  rw [boxMeasure, ← he, hpow]
  omega

theorem solveFuel_total (q : Word → Nat → List Word) (N : Nat)
    (hq : ∀ p L, (q p L).length ≤ N) :
    ∀ fuel fr, (∀ b ∈ fr, b.rows.length ≤ b.row_dim) →
      frontierMeasure N fr < fuel → ∃ r, solveFuel q fuel fr = some r := by
  intro fuel
  induction fuel with
  | zero =>
    intro fr _ hm
    exact absurd hm (Nat.not_lt_zero _)
  | succ f ih =>
    intro fr hinv hm
    cases fr with
    | nil => exact ⟨none, by simp [solveFuel]⟩
    | cons b0 rest =>
      cases hd : WordBox.is_done b0 with
      | true => exact ⟨some b0, solveFuel_cons_done q f b0 rest hd⟩
      | false =>
        have hlt : b0.rows.length < b0.row_dim := by
          have h1 := hinv b0 (List.mem_cons_self b0 rest)
          have h2 := not_done_length_ne hd
          omega
        have hinv' : ∀ b ∈ solveChildren q b0 ++ rest, b.rows.length ≤ b.row_dim := by
          intro b hb
          rcases List.mem_append.1 hb with hbc | hbr
          · obtain ⟨c, _, _, rfl⟩ := (mem_solveChildren q b0 b).1 hbc
            have h1 : (WordBox.add_word b0 c).rows.length = b0.rows.length + 1 := by
              simp [WordBox.add_word]
            have h2 : (WordBox.add_word b0 c).row_dim = b0.row_dim := rfl
            omega
          · exact hinv b (List.mem_cons_of_mem b0 hbr)
        have hm' : frontierMeasure N (solveChildren q b0 ++ rest) < f := by
          have h1 := solveChildren_measure q N hq b0 hlt
          have h2 : frontierMeasure N (b0 :: rest) =
              boxMeasure N b0 + frontierMeasure N rest := by
            rw [frontierMeasure, List.map_cons, List.sum_cons, frontierMeasure]
          rw [frontierMeasure_append]
          rw [h2] at hm
          omega
        obtain ⟨r, hr⟩ := ih _ hinv' hm'
        exact ⟨r, by rw [solveFuel_cons_not_done q f b0 rest hd]; exact hr⟩

/-! ## Claim C3: the frontier loop never runs forever -/

theorem solveFuelP_cons_done (q : Word → Nat → List Word) (fuel : Nat) (b : WordBox)
    (rest : List WordBox) (h : WordBox.is_done b = true) :
    solveFuelP q (fuel + 1) (b :: rest) = some (SolveOutcome.finished (some b)) := by
  simp [solveFuelP, h]

theorem solveFuelP_cons_prefix_panic (q : Word → Nat → List Word) (fuel : Nat)
    (b : WordBox) (rest : List WordBox) (h : WordBox.is_done b = false)
    (hp : take_ith_charactersP b.cols b.rows.length = none) :
    solveFuelP q (fuel + 1) (b :: rest) = some SolveOutcome.panicked := by
  simp [solveFuelP, h, hp]

theorem solveFuelP_cons_panic_at_filter (q : Word → Nat → List Word) (fuel : Nat)
    (b : WordBox) (rest : List WordBox) (pfx : Word) (h : WordBox.is_done b = false)
    (hp : take_ith_charactersP b.cols b.rows.length = some pfx)
    (hf : filterValidP b q (q pfx b.col_dim) = none) :
    solveFuelP q (fuel + 1) (b :: rest) = some SolveOutcome.panicked := by
  simp [solveFuelP, h, hp, hf]

theorem solveFuelP_cons_step (q : Word → Nat → List Word) (fuel : Nat) (b : WordBox)
    (rest : List WordBox) (pfx : Word) (choices : List Word)
    (h : WordBox.is_done b = false)
    (hp : take_ith_charactersP b.cols b.rows.length = some pfx)
    (hf : filterValidP b q (q pfx b.col_dim) = some choices) :
    solveFuelP q (fuel + 1) (b :: rest) =
      solveFuelP q fuel
        ((choices.map (fun wd => WordBox.add_word b wd)).reverse ++ rest) := by
  simp [solveFuelP, h, hp, hf]

theorem filterValidP_length (b : WordBox) (q : Word → Nat → List Word) :
    ∀ l choices, filterValidP b q l = some choices → choices.length ≤ l.length := by
  intro l
  induction l with
  | nil =>
    intro choices h
    have h1 : some ([] : List Word) = some choices := h
    injection h1 with h2
    rw [← h2]
  | cons wd rest ih =>
    intro choices h
    cases hv : is_valid_moveP b wd q with
    | none =>
      simp only [filterValidP, hv] at h
      exact Option.noConfusion h
    | some bv =>
      cases bv with
      | true =>
        cases hr : filterValidP b q rest with
        | none =>
          simp only [filterValidP, hv, hr] at h
          exact Option.noConfusion h
        | some l2 =>
          simp only [filterValidP, hv, hr, Option.some.injEq] at h
          rw [← h, List.length_cons, List.length_cons]
          exact Nat.succ_le_succ (ih l2 hr)
      | false =>
        simp only [filterValidP, hv] at h
        have := ih choices h
        rw [List.length_cons]
        omega

theorem mapped_children_measure (N : Nat) (b : WordBox) (choices : List Word)
    (hcount : choices.length ≤ N) (hlt : b.rows.length < b.row_dim) :
    frontierMeasure N ((choices.map (fun wd => WordBox.add_word b wd)).reverse) + 1 ≤
      boxMeasure N b := by
  set e := b.row_dim - b.rows.length with he
  have he1 : 1 ≤ e := by omega
  have hchild : ∀ x ∈ (choices.map (fun wd => WordBox.add_word b wd)).reverse,
      boxMeasure N x ≤ (N + 1) ^ (e - 1) := by
    intro x hx
    rw [List.mem_reverse] at hx
    obtain ⟨c, _, rfl⟩ := List.mem_map.1 hx
    rw [boxMeasure]
    have h1 : (WordBox.add_word b c).rows.length = b.rows.length + 1 := by
      simp [WordBox.add_word]
    have h2 : (WordBox.add_word b c).row_dim = b.row_dim := rfl
    rw [h1, h2]
    have h3 : b.row_dim - (b.rows.length + 1) = e - 1 := by omega
    rw [h3]
  have hlen : ((choices.map (fun wd => WordBox.add_word b wd)).reverse).length ≤ N := by
    rw [List.length_reverse, List.length_map]
    exact hcount
  have hsum : frontierMeasure N ((choices.map (fun wd => WordBox.add_word b wd)).reverse) ≤
      N * (N + 1) ^ (e - 1) := by
    rw [frontierMeasure]
    refine le_trans
      (sum_map_le_length_mul (boxMeasure N) ((N + 1) ^ (e - 1)) _ hchild) ?_
    exact Nat.mul_le_mul_right _ hlen
  have hpow : (N + 1) ^ e = N * (N + 1) ^ (e - 1) + (N + 1) ^ (e - 1) := by
    have h2 : e = (e - 1) + 1 := by omega
    calc (N + 1) ^ e = (N + 1) ^ ((e - 1) + 1) := by rw [← h2]
      _ = (N + 1) ^ (e - 1) * (N + 1) := pow_succ (N + 1) (e - 1)
      _ = N * (N + 1) ^ (e - 1) + (N + 1) ^ (e - 1) := by ring
  have hpos : 1 ≤ (N + 1) ^ (e - 1) := Nat.one_le_pow _ _ (by omega)
  rw [boxMeasure, ← he, hpow]
  omega

theorem solveFuelP_finished_done (q : Word → Nat → List Word) :
    ∀ fuel fr b, solveFuelP q fuel fr = some (SolveOutcome.finished (some b)) →
      WordBox.is_done b = true := by
  intro fuel
  induction fuel with
  | zero =>
    intro fr b h
    exact absurd h (by simp [solveFuelP])
  | succ f ih =>
    intro fr b h
    cases fr with
    | nil => simp [solveFuelP] at h
    | cons b0 rest =>
      cases hd : WordBox.is_done b0 with
      | true =>
        rw [solveFuelP_cons_done q f b0 rest hd] at h
        have hb : b0 = b := by
          injection h with h1
          injection h1 with h2
          injection h2
        rw [← hb]
        exact hd
      | false =>
        cases hpfx : take_ith_charactersP b0.cols b0.rows.length with
        | none =>
          rw [solveFuelP_cons_prefix_panic q f b0 rest hd hpfx] at h
          injection h with h1
          exact SolveOutcome.noConfusion h1
        | some pfx =>
          cases hfv : filterValidP b0 q (q pfx b0.col_dim) with
          | none =>
            rw [solveFuelP_cons_panic_at_filter q f b0 rest pfx hd hpfx hfv] at h
            injection h with h1
            exact SolveOutcome.noConfusion h1
          | some choices =>
            rw [solveFuelP_cons_step q f b0 rest pfx choices hd hpfx hfv] at h
            exact ih _ b h

theorem solveFuelP_total (q : Word → Nat → List Word) (N : Nat)
    (hq : ∀ p L, (q p L).length ≤ N) :
    ∀ fuel fr, (∀ b ∈ fr, b.rows.length ≤ b.row_dim) →
      frontierMeasure N fr < fuel → ∃ r, solveFuelP q fuel fr = some r := by
  intro fuel
  induction fuel with
  | zero =>
    intro fr _ hm
    exact absurd hm (Nat.not_lt_zero _)
  | succ f ih =>
    intro fr hinv hm
    cases fr with
    | nil => exact ⟨SolveOutcome.finished none, by simp [solveFuelP]⟩
    | cons b0 rest =>
      cases hd : WordBox.is_done b0 with
      | true => exact ⟨SolveOutcome.finished (some b0), solveFuelP_cons_done q f b0 rest hd⟩
      | false =>
        have hlt : b0.rows.length < b0.row_dim := by
          have h1 := hinv b0 (List.mem_cons_self b0 rest)
          have h2 := not_done_length_ne hd
          omega
        cases hpfx : take_ith_charactersP b0.cols b0.rows.length with
        | none =>
          exact ⟨SolveOutcome.panicked, solveFuelP_cons_prefix_panic q f b0 rest hd hpfx⟩
        | some pfx =>
          cases hfv : filterValidP b0 q (q pfx b0.col_dim) with
          | none =>
            exact ⟨SolveOutcome.panicked,
              solveFuelP_cons_panic_at_filter q f b0 rest pfx hd hpfx hfv⟩
          | some choices =>
            have hcount : choices.length ≤ N :=
              le_trans (filterValidP_length b0 q _ choices hfv) (hq pfx b0.col_dim)
            have hinv' : ∀ b ∈ (choices.map (fun wd => WordBox.add_word b0 wd)).reverse ++ rest,
                b.rows.length ≤ b.row_dim := by
              intro b hb
              rcases List.mem_append.1 hb with hbc | hbr
              · rw [List.mem_reverse] at hbc
                obtain ⟨c, _, rfl⟩ := List.mem_map.1 hbc
                have h1 : (WordBox.add_word b0 c).rows.length = b0.rows.length + 1 := by
                  simp [WordBox.add_word]
                have h2 : (WordBox.add_word b0 c).row_dim = b0.row_dim := rfl
                omega
              · exact hinv b (List.mem_cons_of_mem b0 hbr)
            have hm' : frontierMeasure N
                ((choices.map (fun wd => WordBox.add_word b0 wd)).reverse ++ rest) < f := by
              have h1 := mapped_children_measure N b0 choices hcount hlt
              have h2 : frontierMeasure N (b0 :: rest) =
                  boxMeasure N b0 + frontierMeasure N rest := by
                rw [frontierMeasure, List.map_cons, List.sum_cons, frontierMeasure]
              rw [frontierMeasure_append]
              rw [h2] at hm
              omega
            obtain ⟨r, hr⟩ := ih _ hinv' hm'
            exact ⟨r, by rw [solveFuelP_cons_step q f b0 rest pfx choices hd hpfx hfv]; exact hr⟩

/-- Claim C3, counterexample to the claim as stated: the box
`{row_dim: 2, col_dim: 2, rows: ["a"], cols: ["a"]}` is within the claim's
scope (one placed row, at most `row_dim`), yet on it `solve_word_box` does not
return `Some` or `None`: the very first iteration evaluates
`"a".chars().nth(1).unwrap()` for the next-row prefix and panics.  In the
panic-aware embedding the modelled run ends in `SolveOutcome.panicked`, which
is neither `finished none` nor `finished (some box)`; the query used is the
query of a real (empty) `VecLexicon`. -/
theorem solve_word_box_panics_within_scope :
    (WordBox.mk 2 2 [['a']] [['a']] true).rows.length ≤
      (WordBox.mk 2 2 [['a']] [['a']] true).row_dim ∧
    (∀ p L, emptyQuery p L = VecLexicon.words_with_prefix ( VecLexicon.initialize [] []) p L) ∧
    take_ith_charactersP (WordBox.mk 2 2 [['a']] [['a']] true).cols
      (WordBox.mk 2 2 [['a']] [['a']] true).rows.length = none ∧
    solveFuelP emptyQuery 1 [WordBox.mk 2 2 [['a']] [['a']] true] =
      some SolveOutcome.panicked ∧
    SolveOutcome.panicked ≠ SolveOutcome.finished none ∧
    ∀ bx : WordBox, SolveOutcome.panicked ≠ SolveOutcome.finished (some bx) :=
  ⟨by decide, fun p L => rfl, by decide, by decide, by decide,
    fun bx h => SolveOutcome.noConfusion h⟩

/-- Claim C3 as amended: `solve_word_box` never loops indefinitely.  For every
input box with at most `row_dim` placed rows and every finitely-answering
lexicon query (both implementations answer with sublists of finite
structures, so a bound `N` always exists), some finite fuel makes the
panic-aware frontier loop finish, and the run ends in one of the three ways
the source can end: the `unwrap` panic, `None` (exhaustion), or `Some` of a
done box. -/
theorem solve_word_box_terminates_or_panics (q : Word → Nat → List Word) (N : Nat)
    (hq : ∀ p L, (q p L).length ≤ N) (wb : WordBox)
    (hwb : wb.rows.length ≤ wb.row_dim) :
    ∃ fuel r, solveFuelP q fuel [wb] = some r ∧
      (r = SolveOutcome.panicked ∨ r = SolveOutcome.finished none ∨
        ∃ b, r = SolveOutcome.finished (some b) ∧ WordBox.is_done b = true) := by
  obtain ⟨r, hr⟩ := solveFuelP_total q N hq (frontierMeasure N [wb] + 1) [wb]
    (by intro b hb; rw [List.mem_singleton.1 hb]; exact hwb) (by omega)
  refine ⟨frontierMeasure N [wb] + 1, r, hr, ?_⟩
  cases r with
  | panicked => exact Or.inl rfl
  | finished ob =>
    cases ob with
    | none => exact Or.inr (Or.inl rfl)
    | some b => exact Or.inr (Or.inr ⟨b, rfl, solveFuelP_finished_done q _ _ b hr⟩)

/-- Claim C3 witness (for the amended theorem): the 1 × 1 seed "a" over the
singleton dictionary, with query bound 1; the hypotheses hold and the search
terminates (here with a solution). -/
theorem solve_word_box_terminates_or_panics_witness :
    (∀ p L, (driverQuery [['a']] 1 p L).length ≤ 1) ∧
    (driverSeed ['a'] 1).rows.length ≤ (driverSeed ['a'] 1).row_dim ∧
    ∃ fuel r, solveFuelP (driverQuery [['a']] 1) fuel [driverSeed ['a'] 1] = some r ∧
      (r = SolveOutcome.panicked ∨ r = SolveOutcome.finished none ∨
        ∃ b, r = SolveOutcome.finished (some b) ∧ WordBox.is_done b = true) := by
  have hq : ∀ p L, (driverQuery [['a']] 1 p L).length ≤ 1 := by
    intro p L
    rw [driverQuery, driverLexicon]
    rw [HM_words_with_prefix_eq]
    calc ((filter_words [['a']]).filter
          (fun wd => ([1, 1] : List Nat).contains wd.length &&
            (starts_with wd p && wd.length == L))).length
        ≤ (filter_words [['a']]).length := List.length_filter_le _ _
      _ ≤ 1 := by decide
  exact ⟨hq, by decide,
    solve_word_box_terminates_or_panics (driverQuery [['a']] 1) 1 hq
      (driverSeed ['a'] 1) (by decide)⟩

/-! ## Claim C9: in-bounds character accesses on reachable states -/

theorem reaches_inv (q : Word → Nat → List Word)
    (hq : ∀ p L wd, wd ∈ q p L → wd.length = L) (s b : WordBox)
    (hrows : ∀ wd ∈ s.rows, wd.length = s.col_dim)
    (hcols : ∀ wd ∈ s.cols, wd.length = s.col_dim)
    (hlen : s.rows.length ≤ s.row_dim)
    (hreach : Reaches q s b) :
    (∀ wd ∈ b.rows, wd.length = b.col_dim) ∧ (∀ wd ∈ b.cols, wd.length = b.col_dim) ∧
    b.row_dim = s.row_dim ∧ b.col_dim = s.col_dim ∧ b.rows.length ≤ b.row_dim := by
  induction hreach with
  | refl => exact ⟨hrows, hcols, rfl, rfl, hlen⟩
  | step hre hnd hc ih =>
    rename_i b1 c
    obtain ⟨ihrows, ihcols, ihrd, ihcd, ihlen⟩ := ih
    have hcq := (List.mem_filter.1 hc).1
    have hclen : c.length = b1.col_dim := hq _ _ c hcq
    have hlt : b1.rows.length < b1.row_dim := by
      have := not_done_length_ne hnd
      omega
    refine ⟨?_, ?_, ihrd, ihcd, ?_⟩
    · intro wd hwd
      rcases List.mem_append.1 hwd with h | h
      · exact ihrows wd h
      · rw [List.mem_singleton.1 h]
        exact hclen
    · show ∀ wd ∈ (if b1.is_symmetric then b1.cols ++ [c] else b1.cols),
        wd.length = b1.col_dim
      cases hs : b1.is_symmetric with
      | true =>
        rw [if_pos rfl]
        intro wd hwd
        rcases List.mem_append.1 hwd with h | h
        · exact ihcols wd h
        · rw [List.mem_singleton.1 h]
          exact hclen
      | false =>
        rw [if_neg (by simp)]
        exact ihcols
    · have h1 : (WordBox.add_word b1 c).rows.length = b1.rows.length + 1 := by
        simp [WordBox.add_word]
      have h2 : (WordBox.add_word b1 c).row_dim = b1.row_dim := rfl
      omega

/-- Claim C9, counterexample to the claim as stated: the claim only asks the
seed's `rows` and `cols` to hold words of length `col_dim` with
`row_dim = col_dim`, but a seed holding MORE than `row_dim` rows already makes
the next-row-prefix access `cols[..][rows.len()]` fall beyond the end of every
column word: `overfullSeed` (1 × 1, rows = ["a", "a"], cols = ["a"]) is
reachable (it is the seed itself), is not done, and its single column word
"a" is shorter than `rows.len() + 1 = 3`. -/
theorem take_ith_characters_access_counterexample :
    (∀ wd ∈ overfullSeed.rows, wd.length = overfullSeed.col_dim) ∧
    (∀ wd ∈ overfullSeed.cols, wd.length = overfullSeed.col_dim) ∧
    overfullSeed.row_dim = overfullSeed.col_dim ∧
    (∀ p L wd, wd ∈ emptyQuery p L → wd.length = L) ∧
    Reaches emptyQuery overfullSeed overfullSeed ∧
    WordBox.is_done overfullSeed = false ∧
    ¬ (∀ wd ∈ overfullSeed.cols, overfullSeed.rows.length + 1 ≤ wd.length) :=
  ⟨by decide, by decide, rfl, by intro p L wd h; exact absurd h (List.not_mem_nil wd),
    Reaches.refl overfullSeed, by decide, by decide⟩

/-- Claim C9 as amended: with the extra (driver-satisfied) hypothesis that the
seed starts with at most `row_dim` placed rows, every box the search reaches
from a seed whose `rows` and `cols` hold only words of length `col_dim` with
`row_dim = col_dim` makes all `take_ith_characters` accesses in bounds: when
the box is not done, every column word has more than `rows.len()` characters
(the next-row-prefix call), and for every candidate the lexicon returns, every
word inspected by `is_valid_move` at column `i < col_dim` has at least `i + 1`
characters. -/
theorem take_ith_characters_access_ok (q : Word → Nat → List Word)
    (hq : ∀ p L wd, wd ∈ q p L → wd.length = L) (s b : WordBox)
    (hrows : ∀ wd ∈ s.rows, wd.length = s.col_dim)
    (hcols : ∀ wd ∈ s.cols, wd.length = s.col_dim)
    (hdim : s.row_dim = s.col_dim)
    (hlen : s.rows.length ≤ s.row_dim)
    (hreach : Reaches q s b) (hnd : WordBox.is_done b = false) :
    (∀ wd ∈ b.cols, b.rows.length + 1 ≤ wd.length) ∧
    (∀ c ∈ q (WordBox.take_ith_characters b.cols b.rows.length) b.col_dim,
      ∀ i, i < b.col_dim → ∀ wd ∈ b.rows ++ [c], i + 1 ≤ wd.length) := by
  obtain ⟨hbrows, hbcols, hbrd, hbcd, hblen⟩ :=
    reaches_inv q hq s b hrows hcols hlen hreach
  have hlt : b.rows.length < b.col_dim := by
    have h1 := not_done_length_ne hnd
    omega
  constructor
  · intro wd hwd
    have := hbcols wd hwd
    omega
  · intro c hcq i hi wd hwd
    have hclen : c.length = b.col_dim := hq _ _ c hcq
    rcases List.mem_append.1 hwd with h | h
    · have := hbrows wd h
      omega
    · rw [List.mem_singleton.1 h]
      omega

/-- Claim C9 witness (for the amended theorem): the 1 × 1 empty seed over the
dictionary \x7b"a"\x7d; the seed is reachable and not done, and both access
conditions hold concretely. -/
theorem take_ith_characters_access_ok_witness :
    (∀ p L wd, wd ∈ driverQuery [['a']] 1 p L → wd.length = L) ∧
    (∀ wd ∈ (WordBox.mk 1 1 [] [] true).cols,
      (WordBox.mk 1 1 [] [] true).rows.length + 1 ≤ wd.length) ∧
    (∀ c ∈ driverQuery [['a']] 1
        (WordBox.take_ith_characters (WordBox.mk 1 1 [] [] true).cols
          (WordBox.mk 1 1 [] [] true).rows.length)
        (WordBox.mk 1 1 [] [] true).col_dim,
      ∀ i, i < (WordBox.mk 1 1 [] [] true).col_dim →
        ∀ wd ∈ (WordBox.mk 1 1 [] [] true).rows ++ [c], i + 1 ≤ wd.length) := by
  have hq : ∀ p L wd, wd ∈ driverQuery [['a']] 1 p L → wd.length = L := by
    intro p L wd h
    exact ((driverQuery_mem [['a']] 1 p L wd).1 h).2.2.2
  have h := take_ith_characters_access_ok (driverQuery [['a']] 1) hq
    (WordBox.mk 1 1 [] [] true) (WordBox.mk 1 1 [] [] true)
    (by decide) (by decide) rfl (by decide)
    (Reaches.refl (WordBox.mk 1 1 [] [] true)) (by decide)
  exact ⟨hq, h.1, h.2⟩

/-! ## Claim C10: byte-level totality of HashMapLexicon::initialize -/

theorem byteSlice_ascii :
    ∀ (w : Word), (∀ c ∈ w, c.utf8Size = 1) →
      ∀ i, i ≤ w.length → ∃ r, byteSlice w i = some r := by
  intro w
  induction w with
  | nil =>
    intro _ i hi
    have : i = 0 := by simpa using hi
    rw [this]
    exact ⟨[], rfl⟩
  | cons c cs ih =>
    intro hall i hi
    cases i with
    | zero => exact ⟨[], rfl⟩
    | succ j =>
      have hc1 : c.utf8Size = 1 := hall c (List.mem_cons_self c cs)
      have hrec : ∃ r, byteSlice cs (j + 1 - c.utf8Size) = some r := by
        refine ih (fun x hx => hall x (List.mem_cons_of_mem c hx)) (j + 1 - c.utf8Size) ?_
        rw [hc1]
        simp only [List.length_cons] at hi
        omega
      obtain ⟨r, hr⟩ := hrec
      refine ⟨c :: r, ?_⟩
      rw [byteSlice]
      rw [if_pos (by omega), hr]

theorem byteLen_ascii (w : Word) (h : ∀ c ∈ w, c.utf8Size = 1) : byteLen w = w.length := by
  induction w with
  | nil => rfl
  | cons c cs ih =>
    rw [byteLen, List.map_cons, List.sum_cons, h c (List.mem_cons_self c cs)]
    rw [byteLen] at ih
    rw [ih (fun x hx => h x (List.mem_cons_of_mem c hx)), List.length_cons]
    omega

theorem foldlM_option_total {α β : Type} (f : β → α → Option β) :
    ∀ (l : List α), (∀ a ∈ l, ∀ m, ∃ m', f m a = some m') →
      ∀ m, ∃ m', l.foldlM f m = some m' := by
  intro l
  induction l with
  | nil => intro _ m; exact ⟨m, rfl⟩
  | cons a t ih =>
    intro h m
    obtain ⟨m1, hm1⟩ := h a (List.mem_cons_self a t) m
    obtain ⟨m', hm'⟩ := ih (fun x hx => h x (List.mem_cons_of_mem a hx)) m1
    refine ⟨m', ?_⟩
    rw [List.foldlM_cons, hm1]
    exact hm'

theorem insertAllPrefixesBytes_ascii (wd : Word) (hascii : ∀ c ∈ wd, c.utf8Size = 1) :
    ∀ m, ∃ m', insertAllPrefixesBytes m wd = some m' := by
  intro m
  refine foldlM_option_total _ (List.range (byteLen wd + 1)) ?_ m
  intro i hi acc
  have hi' : i ≤ byteLen wd := by
    have := List.mem_range.mp hi
    omega
  rw [byteLen_ascii wd hascii] at hi'
  obtain ⟨r, hr⟩ := byteSlice_ascii wd hascii i hi'
  exact ⟨mapPush acc r wd, by rw [hr]⟩

/-- Claim C10: `HashMapLexicon::initialize` is total exactly on the inputs
whose retained words are all single-byte (ASCII): it slices every retained
word at every byte index, so (a) when every retained word's characters are
single-byte the byte-level build succeeds, and (b) it panics on some input
with a multi-byte retained word — concretely, the word "é" (two bytes) with
`lengths = [2]` is retained and the slice at byte index 1 falls inside the
character, so the build returns `none` (the modelled panic). -/
theorem initialize_bytes_ascii_total_and_multibyte_panics :
    (∀ (words : List Word) (lengths : List Nat),
      (∀ wd ∈ words, lengths.contains (byteLen wd) = true → ∀ c ∈ wd, c.utf8Size = 1) →
      ∃ lex, HashMapLexicon.initialize_bytes words lengths = some lex) ∧
    HashMapLexicon.initialize_bytes [['é']] [2] = none := by
  constructor
  · intro words lengths h
    have hstep : ∀ wd ∈ words, ∀ m, ∃ m',
        (if lengths.contains (byteLen wd) then insertAllPrefixesBytes m wd else some m) =
          some m' := by
      intro wd hwd m
      cases hl : lengths.contains (byteLen wd) with
      | true =>
        rw [if_pos rfl]
        exact insertAllPrefixesBytes_ascii wd (h wd hwd hl) m
      | false =>
        rw [if_neg (by simp)]
        exact ⟨m, rfl⟩
    obtain ⟨m, hm⟩ := foldlM_option_total
      (fun m wd =>
        if lengths.contains (byteLen wd) then insertAllPrefixesBytes m wd else some m)
      words hstep []
    refine ⟨⟨m⟩, ?_⟩
    rw [HashMapLexicon.initialize_bytes, hm]
  · decide

/-- Claim C10 witness: the ASCII input \x7b"ab"\x7d with `lengths = [2]`
satisfies the hypothesis, and the build succeeds. -/
theorem initialize_bytes_ascii_total_witness :
    (∀ wd ∈ [(['a', 'b'] : Word)], ([2] : List Nat).contains (byteLen wd) = true →
      ∀ c ∈ wd, c.utf8Size = 1) ∧
    ∃ lex, HashMapLexicon.initialize_bytes [['a', 'b']] [2] = some lex :=
  ⟨by decide,
    initialize_bytes_ascii_total_and_multibyte_panics.1 [['a', 'b']] [2] (by decide)⟩
